import Mathlib

/-!
Verification of the binding-activation mechanism exercised by
`src/MetalImplementation.cpp`.

The repository's single translation unit defines the three activation
macros `NS_PRIVATE_IMPLEMENTATION`, `CA_PRIVATE_IMPLEMENTATION` and
`MTL_PRIVATE_IMPLEMENTATION` and then includes the three binding-surface
headers (Foundation, Metal, QuartzCore).  The headers, the C preprocessor
and the linker are not part of the repository, so the mechanism they
implement is modelled here from the specification: per-unit preprocessing
with include guards and activation flags, per-unit object code, and a
program-wide link step over a symbol table.
-/

/-- Modelled from the spec: a Binding Surface identifier.  The binding
headers are not in the repository; each surface is identified by a
number. -/
abbrev Surface := Nat

/-- Modelled from the spec: a symbol declared by a Binding Surface, given
as the surface together with the index of the symbol within that
surface's declaration list. -/
abbrev BSym := Surface × Nat

/-- Modelled from the spec: the two preprocessor directives relevant to
the binding-activation mechanism — setting a surface's Activation Flag
and including a surface's header. -/
inductive Directive where
  | defineFlag : Surface → Directive
  | includeHeader : Surface → Directive
deriving DecidableEq, Repr

/-- Modelled from the spec: the preprocessing state of one translation
unit — which Activation Flags are set, which headers have already been
included (their include guards now closed), which surfaces have had
their declarations emitted, and which surfaces have had their concrete
definitions emitted, each in order of occurrence. -/
structure PPState where
  flags : List Surface
  included : List Surface
  declared : List Surface
  emitted : List Surface
deriving DecidableEq, Repr

/-- Modelled from the spec: the empty preprocessing state at the start of
a translation unit. -/
def PPState.start : PPState := ⟨[], [], [], []⟩

/-- Modelled from the spec: processing one directive.  Setting a flag
records it; including a header is suppressed by the include guard if the
header was already included, and otherwise declares the surface and, when
the surface's Activation Flag is set at that moment, additionally emits
the surface's definitions. -/
def step (st : PPState) : Directive → PPState
  | .defineFlag s => { st with flags := st.flags ++ [s] }
  | .includeHeader s =>
      if s ∈ st.included then st
      else
        { st with
          included := st.included ++ [s]
          declared := st.declared ++ [s]
          emitted := if s ∈ st.flags then st.emitted ++ [s] else st.emitted }

/-- Modelled from the spec: preprocessing a whole translation unit, i.e.
processing its directives in order from the empty state. -/
def preprocess (ds : List Directive) : PPState :=
  ds.foldl step PPState.start

/-- Surfaces whose concrete definitions are emitted by a unit. -/
def emittedSurfaces (ds : List Directive) : List Surface :=
  (preprocess ds).emitted

/-- Surfaces whose declarations are visible in a unit. -/
def declaredSurfaces (ds : List Directive) : List Surface :=
  (preprocess ds).declared

/-- Modelled from the spec: the symbols declared by a surface, where
`arity s` is the number of symbols surface `s` exposes (the headers are
not in the repository, so the symbol sets are abstract). -/
def symbolsOf (arity : Surface → Nat) (s : Surface) : List BSym :=
  (List.range (arity s)).map (fun i => (s, i))

/-- The symbol definitions emitted into a unit's object code. -/
def unitDefs (arity : Surface → Nat) (ds : List Directive) : List BSym :=
  (emittedSurfaces ds).flatMap (symbolsOf arity)

/-- The symbol declarations visible inside a unit. -/
def unitDecls (arity : Surface → Nat) (ds : List Directive) : List BSym :=
  (declaredSurfaces ds).flatMap (symbolsOf arity)

/-- Modelled from the spec: a translation unit — its preprocessor
directives plus the symbols its code references (calls into the binding
surfaces). -/
structure TransUnit where
  directives : List Directive
  refs : List BSym
deriving DecidableEq, Repr

/-- A unit activates a surface when preprocessing it emits that surface's
definitions. -/
def activates (u : TransUnit) (s : Surface) : Bool :=
  decide (s ∈ emittedSurfaces u.directives)

/-- How many units of the program emit surface `s`'s definitions. -/
def countActivators (prog : List TransUnit) (s : Surface) : Nat :=
  (prog.filter (fun u => activates u s)).length

/-- All symbol definitions the linker sees, in object-file order. -/
def progDefs (arity : Surface → Nat) (prog : List TransUnit) : List BSym :=
  prog.flatMap (fun u => unitDefs arity u.directives)

/-- All symbol references the linker must resolve, in order. -/
def progRefs (prog : List TransUnit) : List BSym :=
  prog.flatMap (fun u => u.refs)

/-- Every occurrence of a symbol that was already defined earlier in the
scan, in scan order; its head is the first duplicated symbol. -/
def dupScan (seen : List BSym) : List BSym → List BSym
  | [] => []
  | x :: xs =>
      if x ∈ seen then x :: dupScan (seen ++ [x]) xs
      else dupScan (seen ++ [x]) xs

/-- The duplicated definitions among a list of symbol definitions. -/
def duplicatesOf (l : List BSym) : List BSym :=
  dupScan [] l

/-- Modelled from the spec: the outcome of the link step — the
duplicate-definition diagnostics and the unresolved-symbol diagnostics,
each naming the offending symbols in order. -/
structure LinkOutcome where
  dups : List BSym
  unresolved : List BSym
deriving DecidableEq, Repr

/-- Modelled from the spec: the linker scans all definitions for
duplicates and all references for missing definitions. -/
def linkOutcome (arity : Surface → Nat) (prog : List TransUnit) : LinkOutcome :=
  { dups := duplicatesOf (progDefs arity prog)
    unresolved := (progRefs prog).filter (fun r => decide (r ∉ progDefs arity prog)) }

/-- Linking succeeds exactly when there is no duplicate-definition and no
unresolved-symbol diagnostic. -/
def linkOk (arity : Surface → Nat) (prog : List TransUnit) : Bool :=
  (linkOutcome arity prog).dups.isEmpty && (linkOutcome arity prog).unresolved.isEmpty

/-- Modelled from the spec: a unit compiles on its own iff every symbol
it references is declared in it (an unknown identifier is a compile-time
error; missing definitions are not). -/
def compileOk (arity : Surface → Nat) (u : TransUnit) : Bool :=
  u.refs.all (fun r => decide (r ∈ unitDecls arity u.directives))

/-- Modelled from the spec: the result of a full build — a runnable
binary, a link failure carrying the diagnostics, or a compile failure. -/
inductive BuildResult where
  | binary : List BSym → BuildResult
  | linkFailure : List BSym → List BSym → BuildResult
  | compileFailure : BuildResult
deriving DecidableEq, Repr

/-- Modelled from the spec: a full build compiles every unit
independently, then links; a failed link yields no binary. -/
def build (arity : Surface → Nat) (prog : List TransUnit) : BuildResult :=
  if prog.all (compileOk arity) then
    if linkOk arity prog then .binary (progDefs arity prog)
    else .linkFailure (linkOutcome arity prog).dups (linkOutcome arity prog).unresolved
  else .compileFailure

/-- The object code the compiler produces for one unit: its emitted
definitions, its visible declarations and its outgoing references. -/
def objectCode (arity : Surface → Nat) (u : TransUnit) : List BSym × List BSym × List BSym :=
  (unitDefs arity u.directives, unitDecls arity u.directives, u.refs)

/-- Compiling a whole program: each unit is compiled from its own text
alone. -/
def compileProgram (arity : Surface → Nat) (prog : List TransUnit) :
    List (List BSym × List BSym × List BSym) :=
  prog.map (objectCode arity)

/-- The Foundation binding surface (`NS_PRIVATE_IMPLEMENTATION`,
`<Foundation/Foundation.hpp>`). -/
def FoundationSurface : Surface := 0

/-- The Metal binding surface (`MTL_PRIVATE_IMPLEMENTATION`,
`<Metal/Metal.hpp>`). -/
def MetalSurface : Surface := 1

/-- The QuartzCore binding surface (`CA_PRIVATE_IMPLEMENTATION`,
`<QuartzCore/QuartzCore.hpp>`). -/
def QuartzCoreSurface : Surface := 2

/-- The directives of `src/MetalImplementation.cpp`, lines 13–18: the
three activation macros, then the three header inclusions in source
order (Foundation, Metal, QuartzCore). -/
def MetalImplementation : List Directive :=
  [ .defineFlag FoundationSurface
  , .defineFlag QuartzCoreSurface
  , .defineFlag MetalSurface
  , .includeHeader FoundationSurface
  , .includeHeader MetalSurface
  , .includeHeader QuartzCoreSurface ]

/-- Occurrences of a symbol in a list, phrased through `countP` so that
no `BEq` instance ambiguity arises. -/
def countSym (x : BSym) (l : List BSym) : Nat :=
  l.countP (fun y => decide (y = x))

/-- Whether a directive is a header inclusion. -/
def isIncludeDirective : Directive → Bool
  | .defineFlag _ => false
  | .includeHeader _ => true

/-- A unit's directives with every flag definition removed. -/
def eraseFlags (ds : List Directive) : List Directive :=
  ds.filter isIncludeDirective

/-- The surface a directive mentions. -/
def surfaceOf : Directive → Surface
  | .defineFlag s => s
  | .includeHeader s => s

/-- The arity assigning one symbol to every surface, used to instantiate
general theorems on concrete programs. -/
def arityOne : Surface → Nat := fun _ => 1

/-- The activation-macro prefix of the repository's unit. -/
def activationFlags : List Directive := MetalImplementation.take 3

/-- The header-inclusion suffix of the repository's unit. -/
def headerIncludes : List Directive := MetalImplementation.drop 3

/-- Two programs whose units differ only in their flag directives (same
header inclusions in the same order, same references). -/
def flagVariant (p q : List TransUnit) : Prop :=
  List.Forall₂ (fun u v =>
    eraseFlags u.directives = eraseFlags v.directives ∧ u.refs = v.refs) p q

theorem countSym_eq_count (x : BSym) (l : List BSym) :
    countSym x l = @List.count BSym instBEqOfDecidableEq x l := rfl

theorem nodup_iff_countSym (l : List BSym) : l.Nodup ↔ ∀ x, countSym x l ≤ 1 := by
  simp only [countSym_eq_count]
  exact List.nodup_iff_count_le_one

theorem countSym_nil (x : BSym) : countSym x [] = 0 := rfl

theorem countSym_append (x : BSym) (a b : List BSym) :
    countSym x (a ++ b) = countSym x a + countSym x b :=
  List.countP_append _ _ _

theorem countSym_cons (x y : BSym) (l : List BSym) :
    countSym x (y :: l) = countSym x l + if y = x then 1 else 0 := by
  simp [countSym, List.countP_cons]

/-- Folding `step` over an appended list splits at the append. -/
theorem foldl_step_append (a b : List Directive) (st : PPState) :
    (a ++ b).foldl step st = b.foldl step (a.foldl step st) :=
  List.foldl_append step st a b

theorem preprocess_append (a b : List Directive) :
    preprocess (a ++ b) = b.foldl step (preprocess a) :=
  foldl_step_append a b PPState.start

/-- One step never removes a surface from the included set. -/
theorem mem_included_step (st : PPState) (d : Directive) (s : Surface)
    (h : s ∈ st.included) : s ∈ (step st d).included := by
  cases d with
  | defineFlag t => exact h
  | includeHeader t =>
      by_cases ht : t ∈ st.included
      · simpa [step, ht] using h
      · simp only [step, if_neg ht]
        exact List.mem_append_left _ h

/-- One step never removes a surface from the emitted set. -/
theorem mem_emitted_step (st : PPState) (d : Directive) (s : Surface)
    (h : s ∈ st.emitted) : s ∈ (step st d).emitted := by
  cases d with
  | defineFlag t => exact h
  | includeHeader t =>
      by_cases ht : t ∈ st.included
      · simpa [step, ht] using h
      · simp only [step, if_neg ht]
        by_cases hf : t ∈ st.flags
        · simp only [if_pos hf]
          exact List.mem_append_left _ h
        · simpa [if_neg hf] using h

theorem mem_included_foldl_of_mem (ds : List Directive) (st : PPState) (s : Surface)
    (h : s ∈ st.included) : s ∈ (ds.foldl step st).included := by
  induction ds generalizing st with
  | nil => exact h
  | cons d ds ih => exact ih (step st d) (mem_included_step st d s h)

theorem mem_emitted_foldl_of_mem (ds : List Directive) (st : PPState) (s : Surface)
    (h : s ∈ st.emitted) : s ∈ (ds.foldl step st).emitted := by
  induction ds generalizing st with
  | nil => exact h
  | cons d ds ih => exact ih (step st d) (mem_emitted_step st d s h)

/-- A surface's flag is set after a run iff it was set before or a
`defineFlag` directive for it occurs in the run. -/
theorem mem_flags_foldl (ds : List Directive) (st : PPState) (s : Surface) :
    s ∈ (ds.foldl step st).flags ↔ s ∈ st.flags ∨ Directive.defineFlag s ∈ ds := by
  induction ds generalizing st with
  | nil => simp
  | cons d ds ih =>
      cases d with
      | defineFlag t =>
          simp only [List.foldl_cons, ih, step, List.mem_cons]
          constructor
          · rintro (h | h)
            · rcases List.mem_append.mp h with h | h
              · exact Or.inl h
              · exact Or.inr (Or.inl (by simpa using (List.mem_singleton.mp h ▸ rfl)))
            · exact Or.inr (Or.inr h)
          · rintro (h | h | h)
            · exact Or.inl (List.mem_append_left _ h)
            · cases h
              exact Or.inl (List.mem_append_right _ (List.mem_singleton.mpr rfl))
            · exact Or.inr h
      | includeHeader t =>
          simp only [List.foldl_cons, ih, List.mem_cons]
          constructor
          · rintro (h | h)
            · left
              by_cases ht : t ∈ st.included
              · simpa [step, ht] using h
              · simpa [step, if_neg ht] using h
            · exact Or.inr (Or.inr h)
          · rintro (h | h | h)
            · left
              by_cases ht : t ∈ st.included
              · simpa [step, ht] using h
              · simpa [step, if_neg ht] using h
            · exact absurd h (by simp)
            · exact Or.inr h

/-- A surface is included after a run iff it was included before or an
`includeHeader` directive for it occurs in the run. -/
theorem mem_included_foldl (ds : List Directive) (st : PPState) (s : Surface) :
    s ∈ (ds.foldl step st).included ↔ s ∈ st.included ∨ Directive.includeHeader s ∈ ds := by
  induction ds generalizing st with
  | nil => simp
  | cons d ds ih =>
      cases d with
      | defineFlag t =>
          simp only [List.foldl_cons, ih, step, List.mem_cons]
          constructor
          · rintro (h | h)
            · exact Or.inl h
            · exact Or.inr (Or.inr h)
          · rintro (h | h | h)
            · exact Or.inl h
            · exact absurd h (by simp)
            · exact Or.inr h
      | includeHeader t =>
          simp only [List.foldl_cons, ih, List.mem_cons]
          by_cases ht : t ∈ st.included
          · simp only [step, if_pos ht]
            constructor
            · rintro (h | h)
              · exact Or.inl h
              · exact Or.inr (Or.inr h)
            · rintro (h | h | h)
              · exact Or.inl h
              · cases h; exact Or.inl ht
              · exact Or.inr h
          · simp only [step, if_neg ht]
            constructor
            · rintro (h | h)
              · rcases List.mem_append.mp h with h | h
                · exact Or.inl h
                · exact Or.inr (Or.inl (by simpa using (List.mem_singleton.mp h ▸ rfl)))
              · exact Or.inr (Or.inr h)
            · rintro (h | h | h)
              · exact Or.inl (List.mem_append_left _ h)
              · cases h
                exact Or.inl (List.mem_append_right _ (List.mem_singleton.mpr rfl))
              · exact Or.inr h

/-- A surface emitted after a run was already emitted, already flagged, or
gets its flag from a directive of the run. -/
theorem mem_emitted_foldl_source (ds : List Directive) (st : PPState) (s : Surface)
    (h : s ∈ (ds.foldl step st).emitted) :
    s ∈ st.emitted ∨ s ∈ st.flags ∨ Directive.defineFlag s ∈ ds := by
  induction ds generalizing st with
  | nil => exact Or.inl h
  | cons d ds ih =>
      cases d with
      | defineFlag t =>
          rcases ih (step st (.defineFlag t)) h with h1 | h1 | h1
          · exact Or.inl h1
          · rcases List.mem_append.mp h1 with h2 | h2
            · exact Or.inr (Or.inl h2)
            · refine Or.inr (Or.inr ?_)
              have : s = t := List.mem_singleton.mp h2
              subst this
              exact List.mem_cons_self _ _
          · exact Or.inr (Or.inr (List.mem_cons_of_mem _ h1))
      | includeHeader t =>
          rcases ih (step st (.includeHeader t)) h with h1 | h1 | h1
          · by_cases ht : t ∈ st.included
            · exact Or.inl (by simpa [step, ht] using h1)
            · simp only [step, if_neg ht] at h1
              by_cases hf : t ∈ st.flags
              · simp only [if_pos hf] at h1
                rcases List.mem_append.mp h1 with h2 | h2
                · exact Or.inl h2
                · have : s = t := List.mem_singleton.mp h2
                  subst this
                  exact Or.inr (Or.inl hf)
              · exact Or.inl (by simpa [if_neg hf] using h1)
          · by_cases ht : t ∈ st.included
            · exact Or.inr (Or.inl (by simpa [step, ht] using h1))
            · exact Or.inr (Or.inl (by simpa [step, if_neg ht] using h1))
          · exact Or.inr (Or.inr (List.mem_cons_of_mem _ h1))

theorem mem_flags_preprocess (ds : List Directive) (s : Surface) :
    s ∈ (preprocess ds).flags ↔ Directive.defineFlag s ∈ ds := by
  unfold preprocess
  rw [mem_flags_foldl]
  simp [PPState.start]

theorem mem_included_preprocess (ds : List Directive) (s : Surface) :
    s ∈ (preprocess ds).included ↔ Directive.includeHeader s ∈ ds := by
  unfold preprocess
  rw [mem_included_foldl]
  simp [PPState.start]

/-- The structural invariants of preprocessing: declared and included
surfaces coincide, both are duplicate-free, and every emitted surface is
an included one with no duplicates. -/
theorem state_invariants (ds : List Directive) (st : PPState)
    (hdi : st.declared = st.included) (hnd : st.included.Nodup)
    (hsub : ∀ t ∈ st.emitted, t ∈ st.included) (hne : st.emitted.Nodup) :
    (ds.foldl step st).declared = (ds.foldl step st).included ∧
    (ds.foldl step st).included.Nodup ∧
    (∀ t ∈ (ds.foldl step st).emitted, t ∈ (ds.foldl step st).included) ∧
    (ds.foldl step st).emitted.Nodup := by
  induction ds generalizing st with
  | nil => exact ⟨hdi, hnd, hsub, hne⟩
  | cons d ds ih =>
      cases d with
      | defineFlag t => exact ih { st with flags := st.flags ++ [t] } hdi hnd hsub hne
      | includeHeader t =>
          by_cases ht : t ∈ st.included
          · simpa [step, ht] using ih st hdi hnd hsub hne
          · simp only [List.foldl_cons, step, if_neg ht]
            refine ih _ (by simp [hdi]) ?_ ?_ ?_
            · simp [List.nodup_append, hnd, ht]
            · intro x hx
              by_cases hf : t ∈ st.flags
              · simp only [if_pos hf] at hx
                rcases List.mem_append.mp hx with hx | hx
                · exact List.mem_append_left _ (hsub x hx)
                · exact List.mem_append_right _ hx
              · simp only [if_neg hf] at hx
                exact List.mem_append_left _ (hsub x hx)
            · by_cases hf : t ∈ st.flags
              · simp only [if_pos hf]
                have : t ∉ st.emitted := fun hc => ht (hsub t hc)
                simp [List.nodup_append, hne, this]
              · simpa [if_neg hf] using hne

theorem declaredSurfaces_eq_included (ds : List Directive) :
    declaredSurfaces ds = (preprocess ds).included :=
  (state_invariants ds PPState.start rfl (by simp [PPState.start])
    (by simp [PPState.start]) (by simp [PPState.start])).1

theorem emittedSurfaces_nodup (ds : List Directive) : (emittedSurfaces ds).Nodup :=
  (state_invariants ds PPState.start rfl (by simp [PPState.start])
    (by simp [PPState.start]) (by simp [PPState.start])).2.2.2

theorem declaredSurfaces_nodup (ds : List Directive) : (declaredSurfaces ds).Nodup := by
  rw [declaredSurfaces_eq_included]
  exact (state_invariants ds PPState.start rfl (by simp [PPState.start])
    (by simp [PPState.start]) (by simp [PPState.start])).2.1

theorem emittedSurfaces_subset_declared (ds : List Directive) :
    ∀ t ∈ emittedSurfaces ds, t ∈ declaredSurfaces ds := by
  rw [declaredSurfaces_eq_included]
  exact (state_invariants ds PPState.start rfl (by simp [PPState.start])
    (by simp [PPState.start]) (by simp [PPState.start])).2.2.1

/-- Once a surface is included, a later `includeHeader` directive for it
is absorbed by the include guard: the whole run is unchanged. -/
theorem foldl_step_include_absorbed (x y : List Directive) (st : PPState) (s : Surface)
    (h : s ∈ st.included) :
    (x ++ Directive.includeHeader s :: y).foldl step st = (x ++ y).foldl step st := by
  induction x generalizing st with
  | nil =>
      simp only [List.nil_append, List.foldl_cons]
      rw [show step st (Directive.includeHeader s) = st by simp [step, h]]
  | cons d x ih =>
      simp only [List.cons_append, List.foldl_cons]
      exact ih (step st d) (mem_included_step st d s h)

/-- Once a surface is included, its flag no longer influences the
included, declared or emitted surfaces: two runs whose flag sets agree
away from `s` evolve identically. -/
theorem foldl_agree_off_included (ds : List Directive) (st1 st2 : PPState) (s : Surface)
    (hfl : ∀ t, t ≠ s → (t ∈ st1.flags ↔ t ∈ st2.flags))
    (hs : s ∈ st1.included)
    (hinc : st1.included = st2.included) (hdec : st1.declared = st2.declared)
    (hem : st1.emitted = st2.emitted) :
    (ds.foldl step st1).included = (ds.foldl step st2).included ∧
    (ds.foldl step st1).declared = (ds.foldl step st2).declared ∧
    (ds.foldl step st1).emitted = (ds.foldl step st2).emitted := by
  induction ds generalizing st1 st2 with
  | nil => exact ⟨hinc, hdec, hem⟩
  | cons d ds ih =>
      cases d with
      | defineFlag u =>
          refine ih _ _ ?_ hs hinc hdec hem
          intro t ht
          simp [step, List.mem_append, hfl t ht]
      | includeHeader u =>
          by_cases hu : u ∈ st1.included
          · have hu2 : u ∈ st2.included := hinc ▸ hu
            simp only [List.foldl_cons, step, if_pos hu, if_pos hu2]
            exact ih st1 st2 hfl hs hinc hdec hem
          · have hu2 : u ∉ st2.included := hinc ▸ hu
            have hne : u ≠ s := fun hc => hu (hc ▸ hs)
            have hflu : u ∈ st1.flags ↔ u ∈ st2.flags := hfl u hne
            simp only [List.foldl_cons, step, if_neg hu, if_neg hu2]
            by_cases hf : u ∈ st1.flags
            · have hf2 : u ∈ st2.flags := hflu.mp hf
              refine ih _ _ hfl (List.mem_append_left _ hs) (by simp [hinc])
                (by simp [hdec]) (by simp [if_pos hf, if_pos hf2, hem])
            · have hf2 : u ∉ st2.flags := fun hc => hf (hflu.mpr hc)
              refine ih _ _ hfl (List.mem_append_left _ hs) (by simp [hinc])
                (by simp [hdec]) (by simp [if_neg hf, if_neg hf2, hem])

theorem filter_ne_concat (l : List Surface) (s u : Surface) :
    (l ++ [u]).filter (fun t => decide (t ≠ s)) =
      l.filter (fun t => decide (t ≠ s)) ++ if u = s then [] else [u] := by
  by_cases h : u = s <;> simp [List.filter_append, h]

theorem filter_ne_emitstep (l : List Surface) (s : Surface) (c : Prop) [Decidable c] :
    (if c then l ++ [s] else l).filter (fun t => decide (t ≠ s)) =
      l.filter (fun t => decide (t ≠ s)) := by
  by_cases h : c <;> simp [h]

/-- A surface's flag has no influence on any other surface: two runs
whose flag sets agree away from `s` keep identical included and declared
surfaces and identical emitted surfaces away from `s`. -/
theorem foldl_agree_off (ds : List Directive) (st1 st2 : PPState) (s : Surface)
    (hfl : ∀ t, t ≠ s → (t ∈ st1.flags ↔ t ∈ st2.flags))
    (hinc : st1.included = st2.included) (hdec : st1.declared = st2.declared)
    (hem : st1.emitted.filter (fun t => decide (t ≠ s)) =
      st2.emitted.filter (fun t => decide (t ≠ s))) :
    (ds.foldl step st1).included = (ds.foldl step st2).included ∧
    (ds.foldl step st1).declared = (ds.foldl step st2).declared ∧
    (ds.foldl step st1).emitted.filter (fun t => decide (t ≠ s)) =
      (ds.foldl step st2).emitted.filter (fun t => decide (t ≠ s)) := by
  induction ds generalizing st1 st2 with
  | nil => exact ⟨hinc, hdec, hem⟩
  | cons d ds ih =>
      cases d with
      | defineFlag u =>
          refine ih _ _ ?_ hinc hdec hem
          intro t ht
          simp [step, List.mem_append, hfl t ht]
      | includeHeader u =>
          by_cases hu : u ∈ st1.included
          · have hu2 : u ∈ st2.included := hinc ▸ hu
            simp only [List.foldl_cons, step, if_pos hu, if_pos hu2]
            exact ih st1 st2 hfl hinc hdec hem
          · have hu2 : u ∉ st2.included := hinc ▸ hu
            simp only [List.foldl_cons, step, if_neg hu, if_neg hu2]
            by_cases hus : u = s
            · subst hus
              refine ih _ _ hfl (by simp [hinc]) (by simp [hdec]) ?_
              show (if u ∈ st1.flags then st1.emitted ++ [u] else st1.emitted).filter _ =
                (if u ∈ st2.flags then st2.emitted ++ [u] else st2.emitted).filter _
              rw [filter_ne_emitstep, filter_ne_emitstep]
              exact hem
            · have hflu : u ∈ st1.flags ↔ u ∈ st2.flags := hfl u hus
              by_cases hf : u ∈ st1.flags
              · have hf2 : u ∈ st2.flags := hflu.mp hf
                refine ih _ _ hfl (by simp [hinc]) (by simp [hdec]) ?_
                show (if u ∈ st1.flags then st1.emitted ++ [u] else st1.emitted).filter _ =
                  (if u ∈ st2.flags then st2.emitted ++ [u] else st2.emitted).filter _
                rw [if_pos hf, if_pos hf2, filter_ne_concat, filter_ne_concat, hem]
              · have hf2 : u ∉ st2.flags := fun hc => hf (hflu.mpr hc)
                refine ih _ _ hfl (by simp [hinc]) (by simp [hdec]) ?_
                show (if u ∈ st1.flags then st1.emitted ++ [u] else st1.emitted).filter _ =
                  (if u ∈ st2.flags then st2.emitted ++ [u] else st2.emitted).filter _
                rw [if_neg hf, if_neg hf2]
                exact hem

/-- The included and declared surfaces never depend on flag directives. -/
theorem foldl_eraseFlags (ds : List Directive) (st1 st2 : PPState)
    (hinc : st1.included = st2.included) (hdec : st1.declared = st2.declared) :
    ((eraseFlags ds).foldl step st2).included = (ds.foldl step st1).included ∧
    ((eraseFlags ds).foldl step st2).declared = (ds.foldl step st1).declared := by
  induction ds generalizing st1 st2 with
  | nil => exact ⟨hinc.symm, hdec.symm⟩
  | cons d ds ih =>
      cases d with
      | defineFlag u =>
          simp only [eraseFlags, List.filter_cons, isIncludeDirective]
          simpa [eraseFlags] using ih { st1 with flags := st1.flags ++ [u] } st2 hinc hdec
      | includeHeader u =>
          simp only [eraseFlags, List.filter_cons, isIncludeDirective, List.foldl_cons]
          by_cases hu : u ∈ st1.included
          · have hu2 : u ∈ st2.included := hinc ▸ hu
            simpa [eraseFlags, step, hu, hu2] using ih st1 st2 hinc hdec
          · have hu2 : u ∉ st2.included := hinc ▸ hu
            simp only [step, if_neg hu, if_neg hu2]
            exact ih _ _ (by simp [step, if_neg hu, if_neg hu2, hinc])
              (by simp [step, if_neg hu, if_neg hu2, hdec])

theorem declaredSurfaces_eraseFlags (ds : List Directive) :
    declaredSurfaces (eraseFlags ds) = declaredSurfaces ds :=
  (foldl_eraseFlags ds PPState.start PPState.start rfl rfl).2

theorem unitDecls_eraseFlags (arity : Surface → Nat) (ds : List Directive) :
    unitDecls arity (eraseFlags ds) = unitDecls arity ds := by
  unfold unitDecls
  rw [declaredSurfaces_eraseFlags]

theorem countSym_singleton (x y : BSym) : countSym x [y] = if y = x then 1 else 0 := by
  simp [countSym, List.countP_cons]

theorem countSym_pos_of_mem (x : BSym) (l : List BSym) (h : x ∈ l) : 1 ≤ countSym x l := by
  have : 0 < l.countP (fun y => decide (y = x)) :=
    List.countP_pos_iff.mpr ⟨x, h, by simp⟩
  exact this

theorem countSym_range_map (t u : Surface) (i n : Nat) :
    countSym (t, i) ((List.range n).map (fun j => (u, j))) =
      if t = u ∧ i < n then 1 else 0 := by
  induction n with
  | zero => simp [countSym]
  | succ n ih =>
      rw [List.range_succ, List.map_append, countSym_append, ih]
      have hmap : (List.map (fun j => ((u, j) : BSym)) [n]) = [(u, n)] := by simp
      rw [hmap, countSym_singleton]
      simp only [Prod.mk.injEq]
      by_cases h1 : t = u
      · subst h1
        by_cases h3 : i = n <;> by_cases h2 : i < n <;>
          simp only [h3, h2, and_true, and_false, true_and, false_and, eq_self_iff_true,
            if_true, if_false, eq_comm] <;> split_ifs <;> omega
      · have hne1 : ¬ (t = u ∧ i < n) := fun hc => h1 hc.1
        have hne2 : ¬ (u = t ∧ n = i) := fun hc => h1 hc.1.symm
        have hne3 : ¬ (t = u ∧ i < n + 1) := fun hc => h1 hc.1
        simp [hne1, hne2, hne3]

theorem countSym_symbolsOf (arity : Surface → Nat) (t u : Surface) (i : Nat) :
    countSym (t, i) (symbolsOf arity u) = if t = u ∧ i < arity u then 1 else 0 := by
  unfold symbolsOf
  exact countSym_range_map t u i (arity u)

theorem countSym_flatMap_symbolsOf (arity : Surface → Nat) (L : List Surface)
    (hL : L.Nodup) (t : Surface) (i : Nat) :
    countSym (t, i) (L.flatMap (symbolsOf arity)) =
      if t ∈ L ∧ i < arity t then 1 else 0 := by
  induction L with
  | nil => simp [countSym]
  | cons s L ih =>
      rw [List.flatMap_cons, countSym_append, countSym_symbolsOf,
        ih (List.nodup_cons.mp hL).2]
      simp only [List.mem_cons]
      by_cases h1 : t = s
      · subst h1
        have hnot : t ∉ L := (List.nodup_cons.mp hL).1
        simp [hnot]
      · simp [h1]

theorem countSym_unitDefs (arity : Surface → Nat) (ds : List Directive)
    (t : Surface) (i : Nat) :
    countSym (t, i) (unitDefs arity ds) =
      if t ∈ emittedSurfaces ds ∧ i < arity t then 1 else 0 :=
  countSym_flatMap_symbolsOf arity (emittedSurfaces ds) (emittedSurfaces_nodup ds) t i

theorem mem_unitDefs (arity : Surface → Nat) (ds : List Directive) (t : Surface) (i : Nat) :
    (t, i) ∈ unitDefs arity ds ↔ t ∈ emittedSurfaces ds ∧ i < arity t := by
  unfold unitDefs symbolsOf
  rw [List.mem_flatMap]
  constructor
  · rintro ⟨a, ha, hmem⟩
    rw [List.mem_map] at hmem
    obtain ⟨j, hj, hji⟩ := hmem
    cases hji
    exact ⟨ha, List.mem_range.mp hj⟩
  · rintro ⟨ht, hi⟩
    exact ⟨t, ht, List.mem_map.mpr ⟨i, List.mem_range.mpr hi, rfl⟩⟩

theorem mem_unitDecls (arity : Surface → Nat) (ds : List Directive) (t : Surface) (i : Nat) :
    (t, i) ∈ unitDecls arity ds ↔ t ∈ declaredSurfaces ds ∧ i < arity t := by
  unfold unitDecls symbolsOf
  rw [List.mem_flatMap]
  constructor
  · rintro ⟨a, ha, hmem⟩
    rw [List.mem_map] at hmem
    obtain ⟨j, hj, hji⟩ := hmem
    cases hji
    exact ⟨ha, List.mem_range.mp hj⟩
  · rintro ⟨ht, hi⟩
    exact ⟨t, ht, List.mem_map.mpr ⟨i, List.mem_range.mpr hi, rfl⟩⟩

theorem nodup_unitDefs (arity : Surface → Nat) (ds : List Directive) :
    (unitDefs arity ds).Nodup := by
  rw [nodup_iff_countSym]
  rintro ⟨t, i⟩
  rw [countSym_unitDefs]
  by_cases h : t ∈ emittedSurfaces ds ∧ i < arity t <;> simp [h]

theorem countActivators_cons (u : TransUnit) (prog : List TransUnit) (s : Surface) :
    countActivators (u :: prog) s =
      (if activates u s then 1 else 0) + countActivators prog s := by
  unfold countActivators
  rw [List.filter_cons]
  by_cases h : activates u s
  · simp only [h, if_true, List.length_cons]
    omega
  · simp [h]

theorem countSym_progDefs (arity : Surface → Nat) (prog : List TransUnit)
    (s : Surface) (i : Nat) :
    countSym (s, i) (progDefs arity prog) =
      if i < arity s then countActivators prog s else 0 := by
  induction prog with
  | nil => simp [progDefs, countActivators, countSym]
  | cons u prog ih =>
      rw [show progDefs arity (u :: prog) =
          unitDefs arity u.directives ++ progDefs arity prog from List.flatMap_cons ..,
        countSym_append, countSym_unitDefs, ih, countActivators_cons]
      by_cases ha : activates u s
      · have hmem : s ∈ emittedSurfaces u.directives := of_decide_eq_true ha
        by_cases hi : i < arity s
        · simp [ha, hmem, hi]
        · simp [ha, hmem, hi]
      · have hmem : s ∉ emittedSurfaces u.directives := fun hc => ha (decide_eq_true hc)
        by_cases hi : i < arity s <;> simp [ha, hmem, hi]

theorem mem_progDefs (arity : Surface → Nat) (prog : List TransUnit) (x : BSym) :
    x ∈ progDefs arity prog ↔ ∃ u ∈ prog, x ∈ unitDefs arity u.directives :=
  List.mem_flatMap

theorem mem_progRefs (prog : List TransUnit) (x : BSym) :
    x ∈ progRefs prog ↔ ∃ u ∈ prog, x ∈ u.refs :=
  List.mem_flatMap

theorem nodup_progDefs_iff (arity : Surface → Nat) (prog : List TransUnit) :
    (progDefs arity prog).Nodup ↔ ∀ t, 0 < arity t → countActivators prog t ≤ 1 := by
  rw [nodup_iff_countSym]
  constructor
  · intro h t ht
    have hc := h (t, 0)
    rw [countSym_progDefs] at hc
    simpa [ht] using hc
  · intro h x
    obtain ⟨t, i⟩ := x
    rw [countSym_progDefs]
    by_cases hi : i < arity t
    · simpa [hi] using h t (Nat.lt_of_le_of_lt (Nat.zero_le _) hi)
    · simp [hi]

theorem dupScan_eq_nil_iff (l seen : List BSym) :
    dupScan seen l = [] ↔ l.Nodup ∧ ∀ x ∈ l, x ∉ seen := by
  induction l generalizing seen with
  | nil => simp [dupScan]
  | cons x xs ih =>
      by_cases hx : x ∈ seen
      · simp only [dupScan, if_pos hx]
        constructor
        · intro h
          exact absurd h (List.cons_ne_nil _ _)
        · rintro ⟨_, hall⟩
          exact absurd hx (hall x (List.mem_cons_self _ _))
      · simp only [dupScan, if_neg hx]
        rw [ih]
        constructor
        · rintro ⟨hnd, hall⟩
          constructor
          · refine List.nodup_cons.mpr ⟨fun hc => ?_, hnd⟩
            exact hall x hc (List.mem_append_right seen (List.mem_singleton.mpr rfl))
          · intro y hy
            rcases List.mem_cons.mp hy with hy | hy
            · exact hy ▸ hx
            · exact fun hc => hall y hy (List.mem_append_left _ hc)
        · rintro ⟨hnd, hall⟩
          have hxxs : x ∉ xs := (List.nodup_cons.mp hnd).1
          refine ⟨(List.nodup_cons.mp hnd).2, ?_⟩
          intro y hy hc
          rcases List.mem_append.mp hc with hc | hc
          · exact hall y (List.mem_cons_of_mem _ hy) hc
          · exact hxxs (List.mem_singleton.mp hc ▸ hy)

theorem duplicatesOf_eq_nil_iff (l : List BSym) : duplicatesOf l = [] ↔ l.Nodup := by
  unfold duplicatesOf
  rw [dupScan_eq_nil_iff]
  simp

/-- Everything the duplicate scan reports occurs in the list, and unless
it was watched from the start it genuinely occurs at least twice. -/
theorem mem_dupScan (l : List BSym) : ∀ (seen : List BSym) (d : BSym),
    d ∈ dupScan seen l → d ∈ l ∧ (d ∈ seen ∨ 2 ≤ countSym d l) := by
  induction l with
  | nil => intro seen d h; simp [dupScan] at h
  | cons x xs ih =>
      intro seen d h
      by_cases hx : x ∈ seen
      · simp only [dupScan, if_pos hx] at h
        rcases List.mem_cons.mp h with h | h
        · exact ⟨h ▸ List.mem_cons_self _ _, Or.inl (h ▸ hx)⟩
        · obtain ⟨hmem, hrest⟩ := ih (seen ++ [x]) d h
          refine ⟨List.mem_cons_of_mem _ hmem, ?_⟩
          rcases hrest with hr | hr
          · rcases List.mem_append.mp hr with hr | hr
            · exact Or.inl hr
            · have hdx : d = x := List.mem_singleton.mp hr
              subst hdx
              refine Or.inr ?_
              rw [countSym_cons]
              have h1 : 1 ≤ countSym d xs := countSym_pos_of_mem d xs hmem
              simp
              omega
          · refine Or.inr ?_
            rw [countSym_cons]
            by_cases hxd : x = d <;> simp only [hxd, if_true, if_false] <;> omega
      · simp only [dupScan, if_neg hx] at h
        obtain ⟨hmem, hrest⟩ := ih (seen ++ [x]) d h
        refine ⟨List.mem_cons_of_mem _ hmem, ?_⟩
        rcases hrest with hr | hr
        · rcases List.mem_append.mp hr with hr | hr
          · exact Or.inl hr
          · have hdx : d = x := List.mem_singleton.mp hr
            subst hdx
            refine Or.inr ?_
            rw [countSym_cons]
            have h1 : 1 ≤ countSym d xs := countSym_pos_of_mem d xs hmem
            simp
            omega
        · refine Or.inr ?_
          rw [countSym_cons]
          by_cases hxd : x = d <;> simp only [hxd, if_true, if_false] <;> omega

theorem mem_duplicatesOf (l : List BSym) (d : BSym) (h : d ∈ duplicatesOf l) :
    d ∈ l ∧ 2 ≤ countSym d l := by
  obtain ⟨hmem, hrest⟩ := mem_dupScan l [] d h
  rcases hrest with hr | hr
  · exact absurd hr (List.not_mem_nil d)
  · exact ⟨hmem, hr⟩

/-- Linking succeeds iff the program has duplicate-free definitions and
every reference is resolved. -/
theorem linkOk_iff (arity : Surface → Nat) (prog : List TransUnit) :
    linkOk arity prog = true ↔
      (progDefs arity prog).Nodup ∧ ∀ r ∈ progRefs prog, r ∈ progDefs arity prog := by
  unfold linkOk linkOutcome
  rw [Bool.and_eq_true, List.isEmpty_iff, List.isEmpty_iff, duplicatesOf_eq_nil_iff,
    List.filter_eq_nil_iff]
  simp

/-- C4: within a translation unit, an Activation Flag set before the
first inclusion of the surface's header makes the unit emit the
surface's definitions, while a flag set after an inclusion of that
header has no effect on the emitted definitions. -/
theorem claim_C4 (arity : Surface → Nat) (a b : List Directive) (s : Surface) :
    (Directive.defineFlag s ∈ a → Directive.includeHeader s ∉ a →
      s ∈ emittedSurfaces (a ++ Directive.includeHeader s :: b)) ∧
    (Directive.includeHeader s ∈ a →
      unitDefs arity (a ++ Directive.defineFlag s :: b) = unitDefs arity (a ++ b)) := by
  constructor
  · intro hdef hninc
    unfold emittedSurfaces
    rw [show a ++ Directive.includeHeader s :: b =
      (a ++ [Directive.includeHeader s]) ++ b by simp, preprocess_append]
    apply mem_emitted_foldl_of_mem
    have hflag : s ∈ (preprocess a).flags :=
      (mem_flags_foldl a PPState.start s).mpr (Or.inr hdef)
    have hninc2 : s ∉ (preprocess a).included :=
      fun h => hninc ((mem_included_preprocess a s).mp h)
    rw [preprocess_append]
    show s ∈ (List.foldl step (preprocess a) [Directive.includeHeader s]).emitted
    simp only [List.foldl_cons, List.foldl_nil, step, if_neg hninc2, if_pos hflag]
    exact List.mem_append_right _ (List.mem_singleton.mpr rfl)
  · intro hinc
    unfold unitDefs emittedSurfaces
    have h1 : preprocess (a ++ Directive.defineFlag s :: b) =
        b.foldl step (step (preprocess a) (Directive.defineFlag s)) := by
      rw [show a ++ Directive.defineFlag s :: b =
        (a ++ [Directive.defineFlag s]) ++ b by simp, preprocess_append, preprocess_append]
      rfl
    rw [h1, preprocess_append]
    have hs : s ∈ (step (preprocess a) (Directive.defineFlag s)).included := by
      show s ∈ (preprocess a).included
      exact (mem_included_preprocess a s).mpr hinc
    have hfl : ∀ t, t ≠ s →
        (t ∈ (step (preprocess a) (Directive.defineFlag s)).flags ↔
          t ∈ (preprocess a).flags) := by
      intro t ht
      show t ∈ (preprocess a).flags ++ [s] ↔ _
      simp [List.mem_append, ht]
    have hrun := foldl_agree_off_included b
      (step (preprocess a) (Directive.defineFlag s)) (preprocess a) s hfl hs rfl rfl rfl
    rw [hrun.2.2]

/-- C4 witness: on a concrete unit the flag set before inclusion emits
surface 0, and a flag added after the inclusion changes nothing. -/
theorem claim_C4_witness :
    (0 : Surface) ∈
      emittedSurfaces ([Directive.defineFlag 0] ++ Directive.includeHeader 0 :: []) ∧
    unitDefs arityOne ([Directive.includeHeader 0] ++ Directive.defineFlag 0 :: []) =
      unitDefs arityOne ([Directive.includeHeader 0] ++ []) :=
  ⟨(claim_C4 arityOne [Directive.defineFlag 0] [] 0).1 (by decide) (by decide),
   (claim_C4 arityOne [Directive.includeHeader 0] [] 0).2 (by decide)⟩

/-- C5: setting surface `s`'s Activation Flag anywhere in a unit has no
effect on which symbols of a different surface `t` are defined, nor on
the unit's declarations. -/
theorem claim_C5 (arity : Surface → Nat) (x y : List Directive) (s t : Surface) (i : Nat)
    (hts : t ≠ s) :
    ((t, i) ∈ unitDefs arity (x ++ Directive.defineFlag s :: y) ↔
      (t, i) ∈ unitDefs arity (x ++ y)) ∧
    unitDecls arity (x ++ Directive.defineFlag s :: y) = unitDecls arity (x ++ y) := by
  have h1 : preprocess (x ++ Directive.defineFlag s :: y) =
      y.foldl step (step (preprocess x) (Directive.defineFlag s)) := by
    rw [show x ++ Directive.defineFlag s :: y =
      (x ++ [Directive.defineFlag s]) ++ y by simp, preprocess_append, preprocess_append]
    rfl
  have h2 : preprocess (x ++ y) = y.foldl step (preprocess x) := preprocess_append x y
  have hfl : ∀ u, u ≠ s →
      (u ∈ (step (preprocess x) (Directive.defineFlag s)).flags ↔
        u ∈ (preprocess x).flags) := by
    intro u hu
    show u ∈ (preprocess x).flags ++ [s] ↔ _
    simp [List.mem_append, hu]
  have hrun := foldl_agree_off y
    (step (preprocess x) (Directive.defineFlag s)) (preprocess x) s hfl rfl rfl rfl
  constructor
  · rw [mem_unitDefs, mem_unitDefs]
    unfold emittedSurfaces
    rw [h1, h2]
    have hmem : t ∈ (y.foldl step (step (preprocess x) (Directive.defineFlag s))).emitted ↔
        t ∈ (y.foldl step (preprocess x)).emitted := by
      constructor
      · intro h
        have : t ∈ (y.foldl step (preprocess x)).emitted.filter
            (fun u => decide (u ≠ s)) := by
          rw [← hrun.2.2]
          exact List.mem_filter.mpr ⟨h, by simpa using hts⟩
        exact (List.mem_filter.mp this).1
      · intro h
        have : t ∈ (y.foldl step (step (preprocess x)
            (Directive.defineFlag s))).emitted.filter (fun u => decide (u ≠ s)) := by
          rw [hrun.2.2]
          exact List.mem_filter.mpr ⟨h, by simpa using hts⟩
        exact (List.mem_filter.mp this).1
    rw [hmem]
  · unfold unitDecls declaredSurfaces
    rw [h1, h2, hrun.2.1]

/-- C5 witness: adding surface 0's flag leaves surface 1's definitions
and the declarations of a concrete unit unchanged. -/
theorem claim_C5_witness :
    (((1 : Surface), (0 : Nat)) ∈
        unitDefs arityOne ([] ++ Directive.defineFlag 0 :: [Directive.includeHeader 1]) ↔
      ((1 : Surface), (0 : Nat)) ∈ unitDefs arityOne ([] ++ [Directive.includeHeader 1])) ∧
    unitDecls arityOne ([] ++ Directive.defineFlag 0 :: [Directive.includeHeader 1]) =
      unitDecls arityOne ([] ++ [Directive.includeHeader 1]) :=
  claim_C5 arityOne [] [Directive.includeHeader 1] 0 1 0 (by decide)

/-- C6: under an intact include guard, including a surface's header a
second time in the same unit yields exactly the definitions of including
it once, and a unit's emitted definitions never contain duplicates. -/
theorem claim_C6 (arity : Surface → Nat) (a b c : List Directive) (s : Surface) :
    unitDefs arity (a ++ Directive.includeHeader s :: (b ++ Directive.includeHeader s :: c)) =
      unitDefs arity (a ++ Directive.includeHeader s :: (b ++ c)) ∧
    (unitDefs arity
      (a ++ Directive.includeHeader s :: (b ++ Directive.includeHeader s :: c))).Nodup := by
  refine ⟨?_, nodup_unitDefs _ _⟩
  unfold unitDefs emittedSurfaces
  have hs : s ∈ (preprocess (a ++ [Directive.includeHeader s])).included :=
    (mem_included_preprocess _ s).mpr (by simp)
  have h1 : a ++ Directive.includeHeader s :: (b ++ Directive.includeHeader s :: c) =
      (a ++ [Directive.includeHeader s]) ++ (b ++ Directive.includeHeader s :: c) := by simp
  have h2 : a ++ Directive.includeHeader s :: (b ++ c) =
      (a ++ [Directive.includeHeader s]) ++ (b ++ c) := by simp
  rw [h1, h2,
    preprocess_append (a ++ [Directive.includeHeader s]) (b ++ Directive.includeHeader s :: c),
    preprocess_append (a ++ [Directive.includeHeader s]) (b ++ c),
    foldl_step_include_absorbed b c (preprocess (a ++ [Directive.includeHeader s])) s hs]

/-- C9: the repository's translation unit defines all three Activation
Flags before every header inclusion, so every compilation of it emits
the concrete definitions of all three Binding Surfaces — it is never
declarations-only. -/
theorem claim_C9 :
    MetalImplementation.take 3 = [Directive.defineFlag FoundationSurface,
      Directive.defineFlag QuartzCoreSurface, Directive.defineFlag MetalSurface] ∧
    MetalImplementation.drop 3 = [Directive.includeHeader FoundationSurface,
      Directive.includeHeader MetalSurface, Directive.includeHeader QuartzCoreSurface] ∧
    emittedSurfaces MetalImplementation =
      [FoundationSurface, MetalSurface, QuartzCoreSurface] ∧
    declaredSurfaces MetalImplementation = emittedSurfaces MetalImplementation := by
  exact ⟨by decide, by decide, by decide, by decide⟩

/-- The flags accumulated by a run are the surfaces of its flag
directives, in order, appended to the initial flags. -/
theorem flags_foldl (ds : List Directive) (st : PPState) :
    (ds.foldl step st).flags =
      st.flags ++ (ds.filter (fun d => !(isIncludeDirective d))).map surfaceOf := by
  induction ds generalizing st with
  | nil => simp
  | cons d ds ih =>
      cases d with
      | defineFlag u =>
          rw [List.foldl_cons, ih]
          simp [step, List.filter_cons, isIncludeDirective, surfaceOf]
      | includeHeader u =>
          rw [List.foldl_cons, ih]
          by_cases hu : u ∈ st.included
          · simp [step, hu, List.filter_cons, isIncludeDirective]
          · simp [step, hu, List.filter_cons, isIncludeDirective]

/-- Two runs whose flag sets agree extensionally evolve the included,
declared and emitted surfaces identically. -/
theorem foldl_flags_ext (ds : List Directive) (st1 st2 : PPState)
    (hfl : ∀ t, t ∈ st1.flags ↔ t ∈ st2.flags)
    (hinc : st1.included = st2.included) (hdec : st1.declared = st2.declared)
    (hem : st1.emitted = st2.emitted) :
    (ds.foldl step st1).included = (ds.foldl step st2).included ∧
    (ds.foldl step st1).declared = (ds.foldl step st2).declared ∧
    (ds.foldl step st1).emitted = (ds.foldl step st2).emitted := by
  induction ds generalizing st1 st2 with
  | nil => exact ⟨hinc, hdec, hem⟩
  | cons d ds ih =>
      cases d with
      | defineFlag u =>
          refine ih _ _ ?_ hinc hdec hem
          intro t
          simp [step, List.mem_append, hfl t]
      | includeHeader u =>
          by_cases hu : u ∈ st1.included
          · have hu2 : u ∈ st2.included := hinc ▸ hu
            simp only [List.foldl_cons, step, if_pos hu, if_pos hu2]
            exact ih st1 st2 hfl hinc hdec hem
          · have hu2 : u ∉ st2.included := hinc ▸ hu
            simp only [List.foldl_cons, step, if_neg hu, if_neg hu2]
            by_cases hf : u ∈ st1.flags
            · have hf2 : u ∈ st2.flags := (hfl u).mp hf
              exact ih _ _ hfl (by simp [hinc]) (by simp [hdec])
                (by simp [if_pos hf, if_pos hf2, hem])
            · have hf2 : u ∉ st2.flags := fun hc => hf ((hfl u).mpr hc)
              exact ih _ _ hfl (by simp [hinc]) (by simp [hdec])
                (by simp [if_neg hf, if_neg hf2, hem])

/-- A run consisting only of flag directives leaves the included,
declared and emitted surfaces untouched. -/
theorem foldl_defines_only (ds : List Directive) (st : PPState)
    (h : ∀ d ∈ ds, isIncludeDirective d = false) :
    (ds.foldl step st).included = st.included ∧
    (ds.foldl step st).declared = st.declared ∧
    (ds.foldl step st).emitted = st.emitted := by
  induction ds generalizing st with
  | nil => exact ⟨rfl, rfl, rfl⟩
  | cons d ds ih =>
      cases d with
      | defineFlag u => exact ih _ (fun e he => h e (List.mem_cons_of_mem _ he))
      | includeHeader u =>
          exact absurd (h _ (List.mem_cons_self _ _)) (by simp [isIncludeDirective])

/-- C10: every permutation of the three activation macro definitions,
kept before the header inclusions, activates the same surfaces, declares
the same surfaces and sets the same flags (up to order) as the source
order. -/
theorem claim_C10 (p : List Directive) (hp : p.Perm activationFlags) :
    emittedSurfaces (p ++ headerIncludes) = emittedSurfaces MetalImplementation ∧
    declaredSurfaces (p ++ headerIncludes) = declaredSurfaces MetalImplementation ∧
    (preprocess (p ++ headerIncludes)).flags.Perm
      (preprocess MetalImplementation).flags := by
  have hMI : MetalImplementation = activationFlags ++ headerIncludes :=
    (List.take_append_drop 3 MetalImplementation).symm
  have hponly : ∀ d ∈ p, isIncludeDirective d = false := by
    intro d hd
    have hmem : d ∈ activationFlags := hp.subset hd
    have hval : d = Directive.defineFlag FoundationSurface ∨
        d = Directive.defineFlag QuartzCoreSurface ∨
        d = Directive.defineFlag MetalSurface := by
      simpa [activationFlags, MetalImplementation] using hmem
    rcases hval with h | h | h <;> subst h <;> rfl
  have haonly : ∀ d ∈ activationFlags, isIncludeDirective d = false := by decide
  have hP := foldl_defines_only p PPState.start hponly
  have hA := foldl_defines_only activationFlags PPState.start haonly
  have hflags : ∀ t, t ∈ (preprocess p).flags ↔ t ∈ (preprocess activationFlags).flags := by
    intro t
    rw [mem_flags_preprocess, mem_flags_preprocess]
    exact hp.mem_iff
  have hrun := foldl_flags_ext headerIncludes (preprocess p) (preprocess activationFlags)
    hflags (hP.1.trans hA.1.symm) (hP.2.1.trans hA.2.1.symm) (hP.2.2.trans hA.2.2.symm)
  refine ⟨?_, ?_, ?_⟩
  · unfold emittedSurfaces
    rw [hMI, preprocess_append, preprocess_append]
    exact hrun.2.2
  · unfold declaredSurfaces
    rw [hMI, preprocess_append, preprocess_append]
    exact hrun.2.1
  · have h1 : (preprocess (p ++ headerIncludes)).flags =
        ((p ++ headerIncludes).filter (fun d => !(isIncludeDirective d))).map surfaceOf := by
      show ((p ++ headerIncludes).foldl step PPState.start).flags = _
      rw [flags_foldl]
      simp [PPState.start]
    have h2 : (preprocess MetalImplementation).flags =
        ((activationFlags ++ headerIncludes).filter
          (fun d => !(isIncludeDirective d))).map surfaceOf := by
      rw [hMI]
      show ((activationFlags ++ headerIncludes).foldl step PPState.start).flags = _
      rw [flags_foldl]
      simp [PPState.start]
    rw [h1, h2]
    exact ((hp.append_right headerIncludes).filter _).map _

/-- C10 witness: the fully reversed macro order behaves like the source
order. -/
theorem claim_C10_witness :
    emittedSurfaces (activationFlags.reverse ++ headerIncludes) =
      emittedSurfaces MetalImplementation ∧
    declaredSurfaces (activationFlags.reverse ++ headerIncludes) =
      declaredSurfaces MetalImplementation ∧
    (preprocess (activationFlags.reverse ++ headerIncludes)).flags.Perm
      (preprocess MetalImplementation).flags :=
  claim_C10 activationFlags.reverse (List.reverse_perm activationFlags)

/-- A unit that never sets a surface's flag cannot emit its definitions. -/
theorem not_activates_of_no_flag (u : TransUnit) (s : Surface)
    (h : Directive.defineFlag s ∉ u.directives) : s ∉ emittedSurfaces u.directives := by
  intro hc
  rcases mem_emitted_foldl_source u.directives PPState.start s hc with h1 | h1 | h1
  · simp [PPState.start] at h1
  · simp [PPState.start] at h1
  · exact h h1

/-- Related units compile identically: compilation ignores flags. -/
theorem compileOk_flagVariant (arity : Surface → Nat) (u v : TransUnit)
    (hd : eraseFlags u.directives = eraseFlags v.directives) (hr : u.refs = v.refs) :
    compileOk arity u = compileOk arity v := by
  unfold compileOk
  rw [hr, ← unitDecls_eraseFlags arity u.directives,
    ← unitDecls_eraseFlags arity v.directives, hd]

/-- C1 counterexample: a program whose single unit includes surface 0's
header while no unit sets surface 0's flag still links successfully, so
linking succeeding is not equivalent to exactly one unit having set the
flag. -/
theorem claim_C1_counterexample :
    (∀ u ∈ [TransUnit.mk [Directive.includeHeader 0] []],
      Directive.includeHeader 0 ∈ u.directives) ∧
    countActivators [TransUnit.mk [Directive.includeHeader 0] []] 0 = 0 ∧
    (∀ u ∈ [TransUnit.mk [Directive.includeHeader 0] []],
      Directive.defineFlag 0 ∉ u.directives) ∧
    linkOk arityOne [TransUnit.mk [Directive.includeHeader 0] []] = true :=
  ⟨by decide, by decide, by decide, by decide⟩

/-- C1 (amended): linking succeeds iff every surface is activated by at
most one unit and every referenced symbol is defined; when linking
succeeds and some unit references a symbol of surface `s`, exactly one
unit activated `s`; and when exactly one unit activated `s`, each of
`s`'s symbols resolves to exactly one definition, supplied by that
unit. -/
theorem claim_C1_amended (arity : Surface → Nat) (prog : List TransUnit)
    (s : Surface) (i : Nat) :
    (linkOk arity prog = true ↔
      (∀ t, 0 < arity t → countActivators prog t ≤ 1) ∧
      ∀ r ∈ progRefs prog, r ∈ progDefs arity prog) ∧
    (linkOk arity prog = true → (s, i) ∈ progRefs prog →
      countActivators prog s = 1) ∧
    (countActivators prog s = 1 → i < arity s →
      countSym (s, i) (progDefs arity prog) = 1 ∧
      ∃ u ∈ prog, activates u s = true ∧ (s, i) ∈ unitDefs arity u.directives) := by
  refine ⟨?_, ?_, ?_⟩
  · rw [linkOk_iff, nodup_progDefs_iff]
  · intro hlk href
    obtain ⟨hnd, hres⟩ := (linkOk_iff arity prog).mp hlk
    obtain ⟨u, hu, hdef⟩ := (mem_progDefs arity prog (s, i)).mp (hres _ href)
    obtain ⟨hem, hi⟩ := (mem_unitDefs arity u.directives s i).mp hdef
    have hle : countActivators prog s ≤ 1 :=
      (nodup_progDefs_iff arity prog).mp hnd s (Nat.lt_of_le_of_lt (Nat.zero_le _) hi)
    have hge : 1 ≤ countActivators prog s := by
      have hmem : u ∈ prog.filter (fun u => activates u s) :=
        List.mem_filter.mpr ⟨hu, decide_eq_true hem⟩
      have := List.length_pos.mpr (List.ne_nil_of_mem hmem)
      exact this
    omega
  · intro h1 hi
    constructor
    · rw [countSym_progDefs]
      simp [hi, h1]
    · have hlen : (prog.filter (fun u => activates u s)).length = 1 := h1
      obtain ⟨u, hu⟩ : ∃ u, u ∈ prog.filter (fun u => activates u s) := by
        cases hfil : prog.filter (fun u => activates u s) with
        | nil => rw [hfil] at hlen; simp at hlen
        | cons v l => exact ⟨v, List.mem_cons_self _ _⟩
      have humem := List.mem_filter.mp hu
      refine ⟨u, humem.1, humem.2, ?_⟩
      rw [mem_unitDefs]
      exact ⟨of_decide_eq_true humem.2, hi⟩

/-- C1 witness: on a one-unit program that activates surface 0, symbol
(0,0) resolves to exactly one definition supplied by that unit. -/
theorem claim_C1_witness :
    countActivators
      [TransUnit.mk [Directive.defineFlag 0, Directive.includeHeader 0] []] 0 = 1 ∧
    (countSym ((0 : Surface), (0 : Nat))
        (progDefs arityOne
          [TransUnit.mk [Directive.defineFlag 0, Directive.includeHeader 0] []]) = 1 ∧
      ∃ u ∈ [TransUnit.mk [Directive.defineFlag 0, Directive.includeHeader 0] []],
        activates u 0 = true ∧
        ((0 : Surface), (0 : Nat)) ∈ unitDefs arityOne u.directives) :=
  ⟨by decide,
   (claim_C1_amended arityOne
     [TransUnit.mk [Directive.defineFlag 0, Directive.includeHeader 0] []] 0 0).2.2
     (by decide) (by decide)⟩

/-- C2: when no unit sets surface `s`'s flag and some unit references a
symbol of `s`, linking fails and the unresolved-symbol diagnostic names
that symbol. -/
theorem claim_C2 (arity : Surface → Nat) (prog : List TransUnit) (s : Surface) (i : Nat)
    (hflag : ∀ u ∈ prog, Directive.defineFlag s ∉ u.directives)
    (href : (s, i) ∈ progRefs prog) :
    linkOk arity prog = false ∧ (s, i) ∈ (linkOutcome arity prog).unresolved := by
  have hnot : (s, i) ∉ progDefs arity prog := by
    intro hc
    obtain ⟨u, hu, hdef⟩ := (mem_progDefs arity prog (s, i)).mp hc
    exact not_activates_of_no_flag u s (hflag u hu)
      ((mem_unitDefs arity u.directives s i).mp hdef).1
  have h2 : (s, i) ∈ (linkOutcome arity prog).unresolved := by
    show (s, i) ∈ (progRefs prog).filter _
    exact List.mem_filter.mpr ⟨href, decide_eq_true hnot⟩
  refine ⟨?_, h2⟩
  cases hlk : linkOk arity prog with
  | false => rfl
  | true =>
      obtain ⟨_, hres⟩ := (linkOk_iff arity prog).mp hlk
      exact absurd (hres _ href) hnot

/-- C2 witness: a single unit referencing symbol (0,0) without any flag
set makes the link fail with (0,0) reported unresolved. -/
theorem claim_C2_witness :
    linkOk arityOne
      [TransUnit.mk [Directive.includeHeader 0] [((0 : Surface), (0 : Nat))]] = false ∧
    ((0 : Surface), (0 : Nat)) ∈ (linkOutcome arityOne
      [TransUnit.mk [Directive.includeHeader 0] [((0 : Surface), (0 : Nat))]]).unresolved :=
  claim_C2 arityOne [TransUnit.mk [Directive.includeHeader 0] [((0 : Surface), (0 : Nat))]]
    0 0 (by decide) (by decide)

/-- C3: when two or more units activate the same surface, linking fails
and the duplicate-definition diagnostic's first entry is a genuinely
duplicated symbol. -/
theorem claim_C3 (arity : Surface → Nat) (prog : List TransUnit) (s : Surface)
    (hs : 0 < arity s) (h2 : 2 ≤ countActivators prog s) :
    linkOk arity prog = false ∧
    ∃ d, (linkOutcome arity prog).dups.head? = some d ∧
      2 ≤ countSym d (progDefs arity prog) := by
  have hcnt : countSym (s, 0) (progDefs arity prog) = countActivators prog s := by
    rw [countSym_progDefs]
    simp [hs]
  have hnd : ¬ (progDefs arity prog).Nodup := by
    intro hnod
    have := (nodup_iff_countSym _).mp hnod (s, 0)
    omega
  have hne : duplicatesOf (progDefs arity prog) ≠ [] :=
    fun hnil => hnd ((duplicatesOf_eq_nil_iff _).mp hnil)
  cases hd : duplicatesOf (progDefs arity prog) with
  | nil => exact absurd hd hne
  | cons d l =>
      have hdups : (linkOutcome arity prog).dups = d :: l := hd
      refine ⟨?_, d, ?_, ?_⟩
      · unfold linkOk
        rw [hdups]
        rfl
      · rw [hdups]
        rfl
      · have hmem : d ∈ duplicatesOf (progDefs arity prog) := by
          rw [hd]
          exact List.mem_cons_self _ _
        exact (mem_duplicatesOf _ _ hmem).2

/-- C3 witness: two identical units both activating surface 0 make the
link fail with a duplicate-definition diagnostic. -/
theorem claim_C3_witness :
    0 < arityOne 0 ∧
    2 ≤ countActivators
      [TransUnit.mk [Directive.defineFlag 0, Directive.includeHeader 0] [],
       TransUnit.mk [Directive.defineFlag 0, Directive.includeHeader 0] []] 0 ∧
    (linkOk arityOne
      [TransUnit.mk [Directive.defineFlag 0, Directive.includeHeader 0] [],
       TransUnit.mk [Directive.defineFlag 0, Directive.includeHeader 0] []] = false ∧
     ∃ d, (linkOutcome arityOne
        [TransUnit.mk [Directive.defineFlag 0, Directive.includeHeader 0] [],
         TransUnit.mk [Directive.defineFlag 0, Directive.includeHeader 0] []]).dups.head? =
          some d ∧
       2 ≤ countSym d (progDefs arityOne
        [TransUnit.mk [Directive.defineFlag 0, Directive.includeHeader 0] [],
         TransUnit.mk [Directive.defineFlag 0, Directive.includeHeader 0] []])) :=
  ⟨by decide, by decide,
   claim_C3 arityOne
     [TransUnit.mk [Directive.defineFlag 0, Directive.includeHeader 0] [],
      TransUnit.mk [Directive.defineFlag 0, Directive.includeHeader 0] []] 0
     (by decide) (by decide)⟩

/-- C7: flag configuration never affects whether units compile; with all
units compiling, failures arise only from the link step, and a failed
link yields a diagnostic rather than a binary. -/
theorem claim_C7 (arity : Surface → Nat) (prog prog2 : List TransUnit)
    (hvar : flagVariant prog prog2) :
    prog.all (compileOk arity) = prog2.all (compileOk arity) ∧
    (prog2.all (compileOk arity) = true →
      (build arity prog2 = BuildResult.binary (progDefs arity prog2) ↔
        linkOk arity prog2 = true) ∧
      (linkOk arity prog2 = false →
        build arity prog2 = BuildResult.linkFailure (linkOutcome arity prog2).dups
          (linkOutcome arity prog2).unresolved ∧
        ((linkOutcome arity prog2).dups ≠ [] ∨
          (linkOutcome arity prog2).unresolved ≠ []))) := by
  constructor
  · induction hvar with
    | nil => rfl
    | @cons a b as bs hab htail ih =>
        rw [List.all_cons, List.all_cons, compileOk_flagVariant arity a b hab.1 hab.2, ih]
  · intro hall
    unfold build
    rw [if_pos hall]
    constructor
    · constructor
      · intro hb
        by_cases hlk : linkOk arity prog2 = true
        · exact hlk
        · rw [if_neg hlk] at hb
          exact BuildResult.noConfusion hb
      · intro hlk
        rw [if_pos hlk]
    · intro hlk
      have hlk2 : ¬ linkOk arity prog2 = true := by simp [hlk]
      rw [if_neg hlk2]
      refine ⟨rfl, ?_⟩
      cases hda : (linkOutcome arity prog2).dups with
      | cons d l => exact Or.inl (by simp [hda])
      | nil =>
          cases hua : (linkOutcome arity prog2).unresolved with
          | cons r l => exact Or.inr (by simp [hua])
          | nil =>
              exfalso
              unfold linkOk at hlk
              rw [hda, hua] at hlk
              simp at hlk

/-- C7 witness: removing the flag directive from a unit leaves its
compilation status unchanged. -/
theorem claim_C7_witness :
    [TransUnit.mk [Directive.defineFlag 0, Directive.includeHeader 0]
        [((0 : Surface), (0 : Nat))]].all (compileOk arityOne) =
      [TransUnit.mk [Directive.includeHeader 0]
        [((0 : Surface), (0 : Nat))]].all (compileOk arityOne) :=
  (claim_C7 arityOne
    [TransUnit.mk [Directive.defineFlag 0, Directive.includeHeader 0]
      [((0 : Surface), (0 : Nat))]]
    [TransUnit.mk [Directive.includeHeader 0] [((0 : Surface), (0 : Nat))]]
    (List.Forall₂.cons ⟨rfl, rfl⟩ List.Forall₂.nil)).1

/-- C8: compiling a unit depends only on that unit's own text — equal
units in any two programs compile to equal object code. -/
theorem claim_C8 (arity : Surface → Nat) (p1 p2 : List TransUnit) (i j : Nat)
    (hi : i < p1.length) (hj : j < p2.length)
    (h : p1.get ⟨i, hi⟩ = p2.get ⟨j, hj⟩) :
    (compileProgram arity p1).get ⟨i, by simpa [compileProgram] using hi⟩ =
      (compileProgram arity p2).get ⟨j, by simpa [compileProgram] using hj⟩ := by
  have e1 : (compileProgram arity p1).get ⟨i, by simpa [compileProgram] using hi⟩ =
      objectCode arity (p1.get ⟨i, hi⟩) := by
    simp [compileProgram]
  have e2 : (compileProgram arity p2).get ⟨j, by simpa [compileProgram] using hj⟩ =
      objectCode arity (p2.get ⟨j, hj⟩) := by
    simp [compileProgram]
  rw [e1, e2, h]

/-- C8 witness: the same unit placed in two programs yields the same
object code. -/
theorem claim_C8_witness :
    (compileProgram arityOne [TransUnit.mk [] []]).get ⟨0, by simp [compileProgram]⟩ =
      (compileProgram arityOne [TransUnit.mk [] []]).get ⟨0, by simp [compileProgram]⟩ :=
  claim_C8 arityOne [TransUnit.mk [] []] [TransUnit.mk [] []] 0 0
    (by decide) (by decide) rfl
